import Mathlib

/-! Verification of the concurrent enumeration core of cloudfox's AWS secrets
module (`aws/secrets.go`).

The Go module fans out one goroutine per region (`executeChecks`), each of
which drives two paginated listing APIs to exhaustion
(`getSecretsManagerSecretsPerRegion`, then `getSSMParametersPerRegion`),
sending every discovered secret over an unbuffered channel to a single
receiver goroutine (`Receiver`) that appends to the shared slice `m.Secrets`.
`PrintSecrets` launches the workers, waits on a `sync.WaitGroup`, then
performs a synchronous two-phase shutdown of the receiver before reading
`m.Secrets`.

We embed the module as a small interleaving semantics: each goroutine is a
fixed list of atomic events (one per Go statement that touches shared state),
and a schedule picks which goroutine steps next.  A channel submission
together with the receiver's append is modelled as one atomic append to the
collection; this is sound for the properties proved here because the channel
is unbuffered (the send completes only when `Receiver` has taken the value,
and `Receiver` performs the append before its next `select`), and the
orchestrator only reads the collection after the receiver's shutdown
acknowledgement, which in turn is only sent after `wg.Wait()` returned.
The counter struct `console.CommandCounter` is not part of this repository's
sources; from its use in `secrets.go` it is a plain record of integer fields
(Pending, Executing, Complete, Error, Total), modelled as such. -/

namespace Cloudfox

/-- One raw record returned by a page of `ListSecrets` (field `SecretList`)
or `DescribeParameters` (field `Parameters`): both carry a `*string` name and
a `*string` description, modelled as `Option String`. -/
structure RawRecord where
  name : Option String
  description : Option String
deriving DecidableEq, Repr, Inhabited

/-- The `Secret` struct of `aws/secrets.go`. -/
structure Secret where
  AWSService : String
  Region : String
  Name : String
  Description : String
deriving DecidableEq, Repr, Inhabited

/-- Outcome of one remote list call (`ListSecrets` / `DescribeParameters`):
either a page of records plus the optional continuation token, or an error. -/
inductive FetchResult where
  | ok (records : List RawRecord) (nextToken : Option String)
  | fail
deriving DecidableEq, Repr, Inhabited

/-- The pagination loop shared by `getSecretsManagerSecretsPerRegion` and
`getSSMParametersPerRegion`: starting from `PaginationControl = nil`, call the
API; on error break (after one error tally); otherwise emit the page's records
and continue with the returned `NextToken` until it is `nil`.  `fuel` bounds
the number of calls (the Go loop is unbounded; `none` means the loop does not
terminate within `fuel` calls).  Returns the records emitted in order, whether
the loop broke on an error, and the tokens passed to the successive calls. -/
def paginate (fetch : Option String → FetchResult) :
    Nat → Option String → Option (List RawRecord × Bool × List (Option String))
  | 0, _ => none
  | fuel + 1, tok =>
    match fetch tok with
    | .fail => some ([], true, [tok])
    | .ok recs none => some (recs, false, [tok])
    | .ok recs (some t) =>
      match paginate fetch fuel (some t) with
      | none => none
      | some (rest, e, toks) => some (recs ++ rest, e, tok :: toks)

/-- Construction of one `Secret` from one raw record, as in the bodies of both
per-region loops: `name := aws.ToString(rec.Name)` (nil becomes `""`), and the
description defaults to the empty string when the record's description is nil. -/
def toSecret (service : String) (r : String) (rec : RawRecord) : Secret :=
  { AWSService := service
    Region := r
    Name := rec.name.getD ""
    Description := rec.description.getD "" }

/-- One atomic step of a goroutine on the shared state: a counter update, a
channel submission (= receiver append), or the receiver-shutdown
acknowledgement received by the orchestrator. -/
inductive Event where
  | incPending
  | incTotal
  | decPending
  | incExecuting
  | submit (s : Secret)
  | incError
  | decExecuting
  | incComplete
  | stopAck
deriving DecidableEq, Repr, Inhabited

/-- The shared state: the result slice `m.Secrets` and the five fields of
`m.CommandCounter` used by the module. -/
structure St where
  collection : List Secret
  pending : Int
  executing : Int
  complete : Int
  total : Int
  error : Int
deriving DecidableEq, Repr, Inhabited

def St.start : St := ⟨[], 0, 0, 0, 0, 0⟩

def applyEvent (st : St) : Event → St
  | .incPending => { st with pending := st.pending + 1 }
  | .incTotal => { st with total := st.total + 1 }
  | .decPending => { st with pending := st.pending - 1 }
  | .incExecuting => { st with executing := st.executing + 1 }
  | .submit s => { st with collection := st.collection ++ [s] }
  | .incError => { st with error := st.error + 1 }
  | .decExecuting => { st with executing := st.executing - 1 }
  | .incComplete => { st with complete := st.complete + 1 }
  | .stopAck => st

/-- The events of one source's pagination loop for one region, given the
outcome of its `paginate`: the submissions of all emitted records in page
order, then one error tally if the loop broke on an error. -/
def sourceEvents (service r : String) (res : List RawRecord × Bool) : List Event :=
  res.1.map (fun rec => .submit (toSecret service r rec))
    ++ (if res.2 then [.incError] else [])

/-- The event list of one region's `executeChecks` goroutine, given the
pagination outcomes of its two sources: `Total++`, `Pending--`, `Executing++`,
then the SecretsManager loop, then the SSM loop, then `Executing--`,
`Complete++`. -/
def workerEvents (smRes ssmRes : List RawRecord × Bool) (r : String) : List Event :=
  [.incTotal, .decPending, .incExecuting]
    ++ sourceEvents "SecretsManager" r smRes
    ++ sourceEvents "SSM" r ssmRes
    ++ [.decExecuting, .incComplete]

/-- The event list of region `r`'s worker computed from the two fetch
functions; `none` when a pagination loop does not terminate within `fuel`. -/
def workerEvents? (fetchSM fetchSSM : String → Option String → FetchResult)
    (fuel : Nat) (r : String) : Option (List Event) :=
  match paginate (fetchSM r) fuel none, paginate (fetchSSM r) fuel none with
  | some (a, ea, _), some (b, eb, _) => some (workerEvents (a, ea) (b, eb) r)
  | _, _ => none

/-- The orchestrator's own event list in `PrintSecrets`: one `Pending++` per
region (each immediately before spawning that region's goroutine), then —
after `wg.Wait()` — the receiver-shutdown acknowledgement. -/
def mainProg (n : Nat) : List Event :=
  List.replicate n Event.incPending ++ [Event.stopAck]

/-- Goroutine identifiers: the orchestrator (`PrintSecrets`) and one worker
per region index. -/
inductive Tid where
  | main
  | worker (i : Nat)
deriving DecidableEq, Repr

/-- A system configuration: number of scheduled regions, remaining events of
the orchestrator and of each worker, and the shared state. -/
structure Sys where
  n : Nat
  main : List Event
  workers : List (List Event)
  state : St
deriving DecidableEq, Repr, Inhabited

/-- Worker `i` may step only after the orchestrator executed its `i`-th
`Pending++` (the `go` statement for region `i` immediately follows it). -/
def launched (s : Sys) (i : Nat) : Bool :=
  decide (i < s.n) && decide (s.main.length ≤ s.n - i)

/-- One scheduled step: the chosen goroutine executes its next event if it is
enabled.  The orchestrator's `stopAck` is enabled only once every worker has
finished (it happens after `wg.Wait()` returned and the receiver acknowledged
on `receiverDone`). -/
def stepTid (s : Sys) : Tid → Option Sys
  | .main =>
    match s.main with
    | [] => none
    | e :: rest =>
      if e = .stopAck ∧ ¬s.workers.all List.isEmpty then none
      else some { s with main := rest, state := applyEvent s.state e }
  | .worker i =>
    match s.workers[i]? with
    | none => none
    | some [] => none
    | some (e :: rest) =>
      if launched s i then
        some { s with workers := s.workers.set i rest, state := applyEvent s.state e }
      else none

/-- Run a schedule; `none` when some scheduled step is disabled. -/
def run (s : Sys) : List Tid → Option Sys
  | [] => some s
  | t :: ts =>
    match stepTid s t with
    | none => none
    | some s₁ => run s₁ ts

/-- Every goroutine has executed all of its events. -/
def allDone (s : Sys) : Bool :=
  s.main.isEmpty && s.workers.all List.isEmpty

/-- The per-region worker programs; `none` when some source's pagination does
not terminate within `fuel`. -/
def workerList? (fetchSM fetchSSM : String → Option String → FetchResult)
    (fuel : Nat) : List String → Option (List (List Event))
  | [] => some []
  | r :: rs =>
    match workerEvents? fetchSM fetchSSM fuel r, workerList? fetchSM fetchSSM fuel rs with
    | some w, some ws => some (w :: ws)
    | _, _ => none

/-- The initial configuration of a `PrintSecrets` run over `regions`:
`none` when some source's pagination does not terminate within `fuel`. -/
def initSys? (regions : List String)
    (fetchSM fetchSSM : String → Option String → FetchResult) (fuel : Nat) :
    Option Sys :=
  match workerList? fetchSM fetchSSM fuel regions with
  | none => none
  | some ws =>
    some { n := regions.length, main := mainProg regions.length,
           workers := ws, state := St.start }

/-- The initial configuration written directly from per-region pagination
outcomes (`smSpec r` / `ssmSpec r` = records emitted and error flag of the
region's SecretsManager / SSM loop). -/
def initSys (regions : List String)
    (smSpec ssmSpec : String → List RawRecord × Bool) : Sys :=
  { n := regions.length, main := mainProg regions.length,
    workers := regions.map (fun r => workerEvents (smSpec r) (ssmSpec r) r),
    state := St.start }

/-! ### Additive measures over runs

Every counter (and the collection itself, viewed as a multiset) is an
additive function of the multiset of events executed so far, so a run
preserves `measure(state) + measure(remaining events)`. -/

def evSum {M : Type} [AddCommMonoid M] (f : Event → M) (es : List Event) : M :=
  (es.map f).sum

def remSum {M : Type} [AddCommMonoid M] (f : Event → M) (s : Sys) : M :=
  evSum f s.main + (s.workers.map (evSum f)).sum

lemma evSum_nil {M : Type} [AddCommMonoid M] (f : Event → M) :
    evSum f [] = 0 := rfl

lemma evSum_cons {M : Type} [AddCommMonoid M] (f : Event → M) (e : Event)
    (es : List Event) : evSum f (e :: es) = f e + evSum f es := by
  simp [evSum]

lemma evSum_append {M : Type} [AddCommMonoid M] (f : Event → M)
    (a b : List Event) : evSum f (a ++ b) = evSum f a + evSum f b := by
  simp [evSum]

/-- Replacing the `i`-th element of a list by a "smaller" one removes exactly
the difference `c` from the mapped sum. -/
lemma sum_map_set {α M : Type} [AddCommMonoid M] (g : α → M) :
    ∀ (l : List α) (i : Nat) (x : α), l[i]? = some x →
      ∀ (y : α) (c : M), g x = c + g y →
        (l.map g).sum = c + ((l.set i y).map g).sum := by
  intro l
  induction l with
  | nil => intro i x hx; simp at hx
  | cons a t ih =>
    intro i x hx y c hc
    cases i with
    | zero =>
      simp only [List.getElem?_cons_zero, Option.some.injEq] at hx
      subst hx
      simp only [List.set, List.map, List.sum_cons]
      rw [hc, add_assoc]
    | succ j =>
      simp only [List.getElem?_cons_succ] at hx
      simp only [List.set, List.map, List.sum_cons]
      rw [ih j x hx y c hc, add_left_comm]

lemma remSum_step {M : Type} [AddCommMonoid M] (f : Event → M) {s s₁ : Sys}
    {t : Tid} (h : stepTid s t = some s₁) :
    ∃ e, remSum f s = f e + remSum f s₁ ∧ s₁.state = applyEvent s.state e := by
  cases t with
  | main =>
    cases hm : s.main with
    | nil => simp [stepTid, hm] at h
    | cons e rest =>
      simp only [stepTid, hm] at h
      split at h
      · exact absurd h (by simp)
      · have hs₁ : s₁ = { s with main := rest, state := applyEvent s.state e } :=
          (Option.some.inj h).symm
        refine ⟨e, ?_, by rw [hs₁]⟩
        rw [hs₁]
        simp [remSum, hm, evSum_cons, add_assoc]
  | worker i =>
    simp only [stepTid] at h
    cases hw : s.workers[i]? with
    | none => simp [hw] at h
    | some w =>
      cases w with
      | nil => simp [hw] at h
      | cons e rest =>
        simp only [hw] at h
        split at h
        · have hs₁ : s₁ = { s with workers := s.workers.set i rest, state := applyEvent s.state e } := (Option.some.inj h).symm
          refine ⟨e, ?_, by rw [hs₁]⟩
          rw [hs₁]
          simp only [remSum]
          have := sum_map_set (evSum f) s.workers i (e :: rest) hw rest (f e)
            (by rw [evSum_cons])
          rw [this, add_left_comm]
        · exact absurd h (by simp)

/-- The conservation law: along any run, a measure of the state compatible
with an additive event weight `f` plus the `f`-weight of the remaining events
is constant. -/
lemma run_measure {M : Type} [AddCommMonoid M] (f : Event → M) (μ : St → M)
    (hf : ∀ st e, μ (applyEvent st e) = μ st + f e) :
    ∀ (sched : List Tid) (s s' : Sys), run s sched = some s' →
      μ s'.state + remSum f s' = μ s.state + remSum f s := by
  intro sched
  induction sched with
  | nil => intro s s' h; cases h; rfl
  | cons t ts ih =>
    intro s s' h
    simp only [run] at h
    cases hst : stepTid s t with
    | none => simp [hst] at h
    | some s₁ =>
      simp only [hst] at h
      obtain ⟨e, hrem, hstate⟩ := remSum_step f hst
      rw [ih s₁ s' h, hstate, hf s.state e, hrem, add_assoc]

lemma remSum_of_allDone {M : Type} [AddCommMonoid M] (f : Event → M) {s : Sys}
    (h : allDone s = true) : remSum f s = 0 := by
  simp only [allDone, Bool.and_eq_true, List.isEmpty_iff, List.all_eq_true] at h
  obtain ⟨hm, hw⟩ := h
  have : ∀ w ∈ s.workers, evSum f w = 0 := by
    intro w hww
    have := hw w hww
    simp only [List.isEmpty_iff] at this
    rw [this]; rfl
  simp only [remSum, hm, evSum_nil]
  rw [List.sum_eq_zero, add_zero]
  intro x hx
  obtain ⟨w, hww, rfl⟩ := List.mem_map.mp hx
  exact this w hww

/-- `measure(final state) = measure(start state) + f-weight of all events`
for a completed run. -/
lemma run_measure_done {M : Type} [AddCommMonoid M] (f : Event → M) (μ : St → M)
    (hf : ∀ st e, μ (applyEvent st e) = μ st + f e)
    {sched : List Tid} {s s' : Sys} (h : run s sched = some s')
    (hdone : allDone s' = true) :
    μ s'.state = μ s.state + remSum f s := by
  have := run_measure f μ hf sched s s' h
  rwa [remSum_of_allDone f hdone, add_zero] at this

/-! ### Event weights for the individual counters and the collection -/

def dPend : Event → Int
  | .incPending => 1
  | .decPending => -1
  | _ => 0

def dExec : Event → Int
  | .incExecuting => 1
  | .decExecuting => -1
  | _ => 0

def dComp : Event → Int
  | .incComplete => 1
  | _ => 0

def dErr : Event → Int
  | .incError => 1
  | _ => 0

def dTot : Event → Int
  | .incTotal => 1
  | _ => 0

def dSub : Event → Multiset Secret
  | .submit s => {s}
  | _ => 0

def dLen : Event → Nat
  | .submit _ => 1
  | _ => 0

lemma applyEvent_pending (st : St) (e : Event) :
    (applyEvent st e).pending = st.pending + dPend e := by
  cases e <;> simp [applyEvent, dPend, sub_eq_add_neg]

lemma applyEvent_executing (st : St) (e : Event) :
    (applyEvent st e).executing = st.executing + dExec e := by
  cases e <;> simp [applyEvent, dExec, sub_eq_add_neg]

lemma applyEvent_complete (st : St) (e : Event) :
    (applyEvent st e).complete = st.complete + dComp e := by
  cases e <;> simp [applyEvent, dComp]

lemma applyEvent_error (st : St) (e : Event) :
    (applyEvent st e).error = st.error + dErr e := by
  cases e <;> simp [applyEvent, dErr]

lemma applyEvent_total (st : St) (e : Event) :
    (applyEvent st e).total = st.total + dTot e := by
  cases e <;> simp [applyEvent, dTot]

lemma applyEvent_collection (st : St) (e : Event) :
    ((applyEvent st e).collection : Multiset Secret) =
      (st.collection : Multiset Secret) + dSub e := by
  cases e <;> simp [applyEvent, dSub, ← Multiset.coe_add, Multiset.coe_singleton]

lemma applyEvent_length (st : St) (e : Event) :
    (applyEvent st e).collection.length = st.collection.length + dLen e := by
  cases e <;> simp [applyEvent, dLen]

/-! ### Weights of the fixed programs -/

lemma evSum_replicate {M : Type} [AddCommMonoid M] (f : Event → M) (n : Nat)
    (e : Event) : evSum f (List.replicate n e) = n • f e := by
  simp [evSum, List.map_replicate, List.sum_replicate]

lemma evSum_mainProg {M : Type} [AddCommMonoid M] (f : Event → M) (n : Nat) :
    evSum f (mainProg n) = n • f .incPending + f .stopAck := by
  simp [mainProg, evSum_append, evSum_replicate, evSum_cons, evSum_nil]

lemma evSum_sourceEvents {M : Type} [AddCommMonoid M] (f : Event → M)
    (svc r : String) (res : List RawRecord × Bool) :
    evSum f (sourceEvents svc r res) =
      (res.1.map (fun rec => f (.submit (toSecret svc r rec)))).sum
        + (if res.2 then f .incError else 0) := by
  rcases res with ⟨recs, err⟩
  cases err <;> simp [sourceEvents, evSum_append, evSum, List.map_map, Function.comp_def]

lemma evSum_workerEvents {M : Type} [AddCommMonoid M] (f : Event → M)
    (smRes ssmRes : List RawRecord × Bool) (r : String) :
    evSum f (workerEvents smRes ssmRes r) =
      f .incTotal + f .decPending + f .incExecuting
        + evSum f (sourceEvents "SecretsManager" r smRes)
        + evSum f (sourceEvents "SSM" r ssmRes)
        + f .decExecuting + f .incComplete := by
  simp [workerEvents, evSum_append, evSum_cons, evSum_nil]
  abel

/-- A weight that is zero on submissions kills the mapped-record sum. -/
lemma evSum_sourceEvents_of_submit_zero {M : Type} [AddCommMonoid M]
    (f : Event → M) (hs : ∀ s, f (.submit s) = 0) (svc r : String)
    (res : List RawRecord × Bool) :
    evSum f (sourceEvents svc r res) = if res.2 then f .incError else 0 := by
  rw [evSum_sourceEvents]
  rw [List.sum_eq_zero, zero_add]
  intro x hx
  obtain ⟨rec, _, rfl⟩ := List.mem_map.mp hx
  exact hs _

lemma singleton_sum_eq_coe {α β : Type} [DecidableEq β] (g : α → β) :
    ∀ (l : List α), (l.map (fun a => ({g a} : Multiset β))).sum = ↑(l.map g) := by
  intro l
  induction l with
  | nil => simp
  | cons a t ih => simp [ih]

/-! ### The initial configuration in terms of pagination outcomes -/

lemma workerList?_eq_map (fetchSM fetchSSM : String → Option String → FetchResult)
    (fuel : Nat) (h : String → List Event) :
    ∀ (l : List String), (∀ r ∈ l, workerEvents? fetchSM fetchSSM fuel r = some (h r)) →
      workerList? fetchSM fetchSSM fuel l = some (l.map h) := by
  intro l
  induction l with
  | nil => intro; rfl
  | cons a t ih =>
    intro hall
    have ha := hall a (List.mem_cons_self a t)
    have ht := ih (fun x hx => hall x (List.mem_cons_of_mem a hx))
    simp [workerList?, ha, ht]

lemma workerEvents?_eq (fetchSM fetchSSM : String → Option String → FetchResult)
    (fuel : Nat) (smSpec ssmSpec : String → List RawRecord × Bool) (r : String)
    (hsm : ∃ toks, paginate (fetchSM r) fuel none = some ((smSpec r).1, (smSpec r).2, toks))
    (hssm : ∃ toks, paginate (fetchSSM r) fuel none = some ((ssmSpec r).1, (ssmSpec r).2, toks)) :
    workerEvents? fetchSM fetchSSM fuel r = some (workerEvents (smSpec r) (ssmSpec r) r) := by
  obtain ⟨ta, ha⟩ := hsm
  obtain ⟨tb, hb⟩ := hssm
  simp [workerEvents?, ha, hb]

lemma initSys?_eq (regions : List String)
    (fetchSM fetchSSM : String → Option String → FetchResult) (fuel : Nat)
    (smSpec ssmSpec : String → List RawRecord × Bool)
    (hsm : ∀ r ∈ regions, ∃ toks,
      paginate (fetchSM r) fuel none = some ((smSpec r).1, (smSpec r).2, toks))
    (hssm : ∀ r ∈ regions, ∃ toks,
      paginate (fetchSSM r) fuel none = some ((ssmSpec r).1, (ssmSpec r).2, toks)) :
    initSys? regions fetchSM fetchSSM fuel = some (initSys regions smSpec ssmSpec) := by
  have hmm : workerList? fetchSM fetchSSM fuel regions =
      some (regions.map (fun r => workerEvents (smSpec r) (ssmSpec r) r)) :=
    workerList?_eq_map fetchSM fetchSSM fuel _ regions
      (fun r hr => workerEvents?_eq fetchSM fetchSSM fuel smSpec ssmSpec r (hsm r hr) (hssm r hr))
  simp [initSys?, hmm, initSys]

/-! ### Weights of one worker's whole program -/

/-- The secrets one region's worker submits: the SecretsManager loop's
emissions followed by the SSM loop's emissions. -/
def regionEmits (smRes ssmRes : List RawRecord × Bool) (r : String) : List Secret :=
  smRes.1.map (toSecret "SecretsManager" r) ++ ssmRes.1.map (toSecret "SSM" r)

lemma evSum_worker_dPend (a b : List RawRecord × Bool) (r : String) :
    evSum dPend (workerEvents a b r) = -1 := by
  rw [evSum_workerEvents]
  rw [evSum_sourceEvents_of_submit_zero dPend (fun _ => rfl),
      evSum_sourceEvents_of_submit_zero dPend (fun _ => rfl)]
  simp [dPend]

lemma evSum_worker_dExec (a b : List RawRecord × Bool) (r : String) :
    evSum dExec (workerEvents a b r) = 0 := by
  rw [evSum_workerEvents]
  rw [evSum_sourceEvents_of_submit_zero dExec (fun _ => rfl),
      evSum_sourceEvents_of_submit_zero dExec (fun _ => rfl)]
  simp [dExec]

lemma evSum_worker_dComp (a b : List RawRecord × Bool) (r : String) :
    evSum dComp (workerEvents a b r) = 1 := by
  rw [evSum_workerEvents]
  rw [evSum_sourceEvents_of_submit_zero dComp (fun _ => rfl),
      evSum_sourceEvents_of_submit_zero dComp (fun _ => rfl)]
  simp [dComp]

lemma evSum_worker_dTot (a b : List RawRecord × Bool) (r : String) :
    evSum dTot (workerEvents a b r) = 1 := by
  rw [evSum_workerEvents]
  rw [evSum_sourceEvents_of_submit_zero dTot (fun _ => rfl),
      evSum_sourceEvents_of_submit_zero dTot (fun _ => rfl)]
  simp [dTot]

lemma evSum_worker_dErr (a b : List RawRecord × Bool) (r : String) :
    evSum dErr (workerEvents a b r) =
      (if a.2 then (1 : Int) else 0) + (if b.2 then (1 : Int) else 0) := by
  rw [evSum_workerEvents]
  rw [evSum_sourceEvents_of_submit_zero dErr (fun _ => rfl),
      evSum_sourceEvents_of_submit_zero dErr (fun _ => rfl)]
  simp [dErr]

lemma evSum_worker_dSub (a b : List RawRecord × Bool) (r : String) :
    evSum dSub (workerEvents a b r) = ↑(regionEmits a b r) := by
  rw [evSum_workerEvents, evSum_sourceEvents, evSum_sourceEvents]
  have h1 := singleton_sum_eq_coe (toSecret "SecretsManager" r) a.1
  have h2 := singleton_sum_eq_coe (toSecret "SSM" r) b.1
  simp only [dSub] at h1 h2 ⊢
  rw [h1, h2]
  simp [regionEmits, ← Multiset.coe_add]

lemma evSum_worker_dLen (a b : List RawRecord × Bool) (r : String) :
    evSum dLen (workerEvents a b r) = a.1.length + b.1.length := by
  rw [evSum_workerEvents, evSum_sourceEvents, evSum_sourceEvents]
  simp [dLen, List.map_const', List.sum_replicate]

lemma remSum_initSys {M : Type} [AddCommMonoid M] (f : Event → M)
    (regions : List String) (smSpec ssmSpec : String → List RawRecord × Bool) :
    remSum f (initSys regions smSpec ssmSpec) =
      evSum f (mainProg regions.length)
        + (regions.map (fun r => evSum f (workerEvents (smSpec r) (ssmSpec r) r))).sum := by
  simp [remSum, initSys, List.map_map, Function.comp_def]

/-! ### The state at the end of a completed run -/

lemma final_state (regions : List String)
    (smSpec ssmSpec : String → List RawRecord × Bool)
    {sched : List Tid} {s' : Sys}
    (hrun : run (initSys regions smSpec ssmSpec) sched = some s')
    (hdone : allDone s' = true) :
    s'.state.pending = 0 ∧
    s'.state.executing = 0 ∧
    s'.state.complete = (regions.length : Int) ∧
    s'.state.total = (regions.length : Int) ∧
    s'.state.error = (regions.map (fun r =>
       (if (smSpec r).2 then (1 : Int) else 0)
         + (if (ssmSpec r).2 then (1 : Int) else 0))).sum ∧
    (s'.state.collection : Multiset Secret) =
      (regions.map (fun r =>
        ((regionEmits (smSpec r) (ssmSpec r) r : List Secret) : Multiset Secret))).sum ∧
    s'.state.collection.length =
      (regions.map (fun r => (smSpec r).1.length + (ssmSpec r).1.length)).sum := by
  refine ⟨?_, ?_, ?_, ?_, ?_, ?_, ?_⟩
  · have h := run_measure_done dPend (fun st => st.pending) applyEvent_pending hrun hdone
    rw [remSum_initSys] at h
    simp only [evSum_worker_dPend, evSum_mainProg, dPend] at h
    simp [initSys, St.start, List.map_const', List.sum_replicate, nsmul_eq_mul] at h
    omega
  · have h := run_measure_done dExec (fun st => st.executing) applyEvent_executing hrun hdone
    rw [remSum_initSys] at h
    simp only [evSum_worker_dExec, evSum_mainProg, dExec] at h
    simp [initSys, St.start, List.map_const', List.sum_replicate, nsmul_eq_mul] at h
    simpa using h
  · have h := run_measure_done dComp (fun st => st.complete) applyEvent_complete hrun hdone
    rw [remSum_initSys] at h
    simp only [evSum_worker_dComp, evSum_mainProg, dComp] at h
    simp [initSys, St.start, List.map_const', List.sum_replicate, nsmul_eq_mul] at h
    simpa using h
  · have h := run_measure_done dTot (fun st => st.total) applyEvent_total hrun hdone
    rw [remSum_initSys] at h
    simp only [evSum_worker_dTot, evSum_mainProg, dTot] at h
    simp [initSys, St.start, List.map_const', List.sum_replicate, nsmul_eq_mul] at h
    simpa using h
  · have h := run_measure_done dErr (fun st => st.error) applyEvent_error hrun hdone
    rw [remSum_initSys] at h
    simp only [evSum_worker_dErr, evSum_mainProg, dErr] at h
    simp [initSys, St.start, nsmul_eq_mul] at h
    simpa using h
  · have h := run_measure_done dSub (fun st => (st.collection : Multiset Secret))
      applyEvent_collection hrun hdone
    rw [remSum_initSys] at h
    simp only [evSum_worker_dSub, evSum_mainProg, dSub] at h
    simp [initSys, St.start] at h
    simpa using h
  · have h := run_measure_done dLen (fun st => st.collection.length) applyEvent_length hrun hdone
    rw [remSum_initSys] at h
    simp only [evSum_worker_dLen, evSum_mainProg, dLen] at h
    simp [initSys, St.start] at h
    simpa using h

/-! ### Control-flow invariants

The orchestrator's remaining program is always a (possibly empty) run of
`Pending++` events followed by the shutdown acknowledgement, and the
acknowledgement can only have been executed once every worker had finished. -/

def Ctrl (s : Sys) : Prop :=
  (s.main = [] → ∀ w ∈ s.workers, w = []) ∧
  (s.main = [] ∨ ∃ k, k ≤ s.n ∧
    s.main = List.replicate k Event.incPending ++ [Event.stopAck])

lemma ctrl_initSys (regions : List String)
    (smSpec ssmSpec : String → List RawRecord × Bool) :
    Ctrl (initSys regions smSpec ssmSpec) := by
  constructor
  · intro hm
    simp [initSys, mainProg] at hm
  · exact Or.inr ⟨regions.length, le_refl _, rfl⟩

lemma ctrl_step {s s₁ : Sys} {t : Tid} (h : stepTid s t = some s₁)
    (hs : Ctrl s) : Ctrl s₁ := by
  obtain ⟨h1, h2⟩ := hs
  cases t with
  | main =>
    cases hm : s.main with
    | nil => simp [stepTid, hm] at h
    | cons e rest =>
      simp only [stepTid, hm] at h
      split at h
      · exact absurd h (by simp)
      · rename_i hcond
        have hs₁ : s₁ = { s with main := rest, state := applyEvent s.state e } :=
          (Option.some.inj h).symm
        subst hs₁
        rcases h2 with h2 | ⟨k, hk, h2⟩
        · rw [h2] at hm; exact absurd hm (by simp)
        · rw [h2] at hm
          cases k with
          | zero =>
            simp only [List.replicate, List.nil_append, List.cons.injEq] at hm
            obtain ⟨he, hrest⟩ := hm
            constructor
            · intro _
              subst he
              by_contra hne
              push_neg at hne
              obtain ⟨w, hw, hwn⟩ := hne
              refine hcond ⟨rfl, ?_⟩
              simp only [List.all_eq_true, Bool.not_eq_true]
              intro hall
              have := hall w hw
              simp only [List.isEmpty_iff] at this
              exact hwn this
            · exact Or.inl hrest.symm
          | succ j =>
            simp only [List.replicate, List.cons_append, List.cons.injEq] at hm
            obtain ⟨he, hrest⟩ := hm
            constructor
            · intro hre
              rw [← hrest] at hre
              exact absurd hre (by simp)
            · exact Or.inr ⟨j, Nat.le_of_succ_le hk, hrest.symm⟩
  | worker i =>
    simp only [stepTid] at h
    cases hw : s.workers[i]? with
    | none => simp [hw] at h
    | some w =>
      cases w with
      | nil => simp [hw] at h
      | cons e rest =>
        simp only [hw] at h
        split at h
        · have hs₁ : s₁ = { s with workers := s.workers.set i rest, state := applyEvent s.state e } := (Option.some.inj h).symm
          subst hs₁
          constructor
          · intro hm
            have hall := h1 hm
            have hmem : (e :: rest) ∈ s.workers := List.getElem?_mem hw
            exact absurd (hall _ hmem) (by simp)
          · exact h2
        · exact absurd h (by simp)

lemma ctrl_run {s s' : Sys} {sched : List Tid} (h : run s sched = some s')
    (hs : Ctrl s) : Ctrl s' := by
  induction sched generalizing s with
  | nil => cases h; exact hs
  | cons t ts ih =>
    simp only [run] at h
    cases hst : stepTid s t with
    | none => simp [hst] at h
    | some s₁ =>
      simp only [hst] at h
      exact ih h (ctrl_step hst hs)

/-- Once the orchestrator's program is exhausted (the shutdown acknowledgement
has been received), no goroutine can take any further step: the state is
frozen. -/
lemma run_frozen {s' : Sys} (hmain : s'.main = []) (hw : ∀ w ∈ s'.workers, w = []) :
    ∀ (sched : List Tid) (s'' : Sys), run s' sched = some s'' → s'' = s' := by
  intro sched s'' h
  cases sched with
  | nil => exact (Option.some.inj h).symm
  | cons t ts =>
    simp only [run] at h
    cases t with
    | main => simp [stepTid, hmain] at h
    | worker i =>
      simp only [stepTid] at h
      cases hwi : s'.workers[i]? with
      | none => simp [hwi] at h
      | some w =>
        have : w = [] := hw w (List.getElem?_mem hwi)
        subst this
        simp [hwi] at h

/-! ### Suffix shape of the workers and the launch bound -/

/-- Each worker's remaining program is a suffix of its full program. -/
def WShape (progs : List (List Event)) (s : Sys) : Prop :=
  List.Forall₂ (fun rem full => rem <:+ full) s.workers progs

lemma forall₂_get {α β : Type} {R : α → β → Prop} :
    ∀ {l₁ : List α} {l₂ : List β}, List.Forall₂ R l₁ l₂ →
      ∀ {i : Nat} {x : α}, l₁[i]? = some x → ∃ y, l₂[i]? = some y ∧ R x y := by
  intro l₁ l₂ h
  induction h with
  | nil => intro i x hx; simp at hx
  | cons hr _ ih =>
    intro i x hx
    cases i with
    | zero =>
      simp only [List.getElem?_cons_zero, Option.some.injEq] at hx
      subst hx
      exact ⟨_, by simp, hr⟩
    | succ j =>
      simp only [List.getElem?_cons_succ] at hx
      obtain ⟨y, hy, hxy⟩ := ih hx
      exact ⟨y, by simpa using hy, hxy⟩

lemma forall₂_set {α β : Type} {R : α → β → Prop} :
    ∀ {l₁ : List α} {l₂ : List β}, List.Forall₂ R l₁ l₂ →
      ∀ (i : Nat) {y : α}, (∀ b, l₂[i]? = some b → R y b) →
        List.Forall₂ R (l₁.set i y) l₂ := by
  intro l₁ l₂ h
  induction h with
  | nil => intro i y _; simp [List.Forall₂.nil]
  | cons hr ht ih =>
    intro i y hy
    cases i with
    | zero =>
      simp only [List.set]
      exact List.Forall₂.cons (hy _ (by simp)) ht
    | succ j =>
      simp only [List.set]
      exact List.Forall₂.cons hr (ih j (fun b hb => hy b (by simpa using hb)))

lemma wShape_step {progs : List (List Event)} {s s₁ : Sys} {t : Tid}
    (h : stepTid s t = some s₁) (hs : WShape progs s) : WShape progs s₁ := by
  cases t with
  | main =>
    cases hm : s.main with
    | nil => simp [stepTid, hm] at h
    | cons e rest =>
      simp only [stepTid, hm] at h
      split at h
      · exact absurd h (by simp)
      · have hs₁ : s₁ = { s with main := rest, state := applyEvent s.state e } :=
          (Option.some.inj h).symm
        subst hs₁
        exact hs
  | worker i =>
    simp only [stepTid] at h
    cases hw : s.workers[i]? with
    | none => simp [hw] at h
    | some w =>
      cases w with
      | nil => simp [hw] at h
      | cons e rest =>
        simp only [hw] at h
        split at h
        · have hs₁ : s₁ = { s with workers := s.workers.set i rest, state := applyEvent s.state e } := (Option.some.inj h).symm
          subst hs₁
          refine forall₂_set hs i (fun b hb => ?_)
          obtain ⟨y, hy, hxy⟩ := forall₂_get hs hw
          rw [hy] at hb
          cases hb
          exact List.IsSuffix.trans (List.suffix_cons e rest) hxy
        · exact absurd h (by simp)

lemma wShape_run {progs : List (List Event)} {s s' : Sys} {sched : List Tid}
    (h : run s sched = some s') (hs : WShape progs s) : WShape progs s' := by
  induction sched generalizing s with
  | nil => cases h; exact hs
  | cons t ts ih =>
    simp only [run] at h
    cases hst : stepTid s t with
    | none => simp [hst] at h
    | some s₁ =>
      simp only [hst] at h
      exact ih h (wShape_step hst hs)

lemma wShape_initSys (regions : List String)
    (smSpec ssmSpec : String → List RawRecord × Bool) :
    WShape (regions.map (fun r => workerEvents (smSpec r) (ssmSpec r) r))
      (initSys regions smSpec ssmSpec) := by
  simp only [WShape, initSys]
  induction regions with
  | nil => exact List.Forall₂.nil
  | cons a t ih => exact List.Forall₂.cons (List.suffix_refl _) ih

/-- Combined weight of one event on `pending + executing + complete`. -/
def dPEC (e : Event) : Int := dPend e + dExec e + dComp e

lemma applyEvent_pec (st : St) (e : Event) :
    (applyEvent st e).pending + (applyEvent st e).executing
        + (applyEvent st e).complete =
      (st.pending + st.executing + st.complete) + dPEC e := by
  rw [applyEvent_pending, applyEvent_executing, applyEvent_complete, dPEC]
  ring

lemma evSum_eq_zero {M : Type} [AddCommMonoid M] {f : Event → M}
    {es : List Event} (h : ∀ e ∈ es, f e = 0) : evSum f es = 0 := by
  rw [evSum]
  exact List.sum_eq_zero (fun x hx => by
    obtain ⟨e, he, rfl⟩ := List.mem_map.mp hx
    exact h e he)

lemma evSum_suffix_append_zero (f : Event → Int) :
    ∀ (mid B : List Event), (∀ e ∈ mid, f e = 0) →
      ∀ t, t <:+ mid ++ B → evSum f t = evSum f B ∨ t <:+ B := by
  intro mid
  induction mid with
  | nil => intro B _ t ht; exact Or.inr (by simpa using ht)
  | cons m ms ih =>
    intro B hz t ht
    rw [List.cons_append, List.suffix_cons_iff] at ht
    rcases ht with rfl | ht
    · left
      rw [evSum_cons, evSum_append, hz m (List.mem_cons_self m ms), zero_add]
      rw [evSum_eq_zero (fun e he => hz e (List.mem_cons_of_mem m he)), zero_add]
    · exact ih B (fun e he => hz e (List.mem_cons_of_mem m he)) t ht

lemma dPEC_sourceEvents_mem (svc r : String) (res : List RawRecord × Bool) :
    ∀ e ∈ sourceEvents svc r res, dPEC e = 0 := by
  intro e he
  simp only [sourceEvents, List.mem_append] at he
  rcases he with he | he
  · obtain ⟨rec, _, rfl⟩ := List.mem_map.mp he
    rfl
  · rcases res with ⟨recs, err⟩
    cases err
    · simp at he
    · simp at he
      subst he
      rfl

/-- The `pending + executing + complete` weight of any suffix of a worker's
program is `0` or `1`. -/
lemma evSum_dPEC_suffix_worker {a b : List RawRecord × Bool} {r : String}
    {t : List Event} (ht : t <:+ workerEvents a b r) :
    evSum dPEC t = 0 ∨ evSum dPEC t = 1 := by
  have hmid : ∀ e ∈ sourceEvents "SecretsManager" r a ++ sourceEvents "SSM" r b,
      dPEC e = 0 := by
    intro e he
    rcases List.mem_append.mp he with he | he
    · exact dPEC_sourceEvents_mem _ _ _ e he
    · exact dPEC_sourceEvents_mem _ _ _ e he
  have hB : ∀ u, u <:+ [Event.decExecuting, Event.incComplete] →
      evSum dPEC u = 0 ∨ evSum dPEC u = 1 := by
    intro u hu
    rw [List.suffix_cons_iff] at hu
    rcases hu with rfl | hu
    · left; decide
    · rw [List.suffix_cons_iff] at hu
      rcases hu with rfl | hu
      · right; decide
      · left
        rw [List.suffix_nil.mp hu]; rfl
  have hw : workerEvents a b r = Event.incTotal :: Event.decPending ::
      Event.incExecuting :: ((sourceEvents "SecretsManager" r a
        ++ sourceEvents "SSM" r b) ++ [Event.decExecuting, Event.incComplete]) := by
    simp [workerEvents]
  rw [hw] at ht
  have hmb : evSum dPEC ((sourceEvents "SecretsManager" r a
      ++ sourceEvents "SSM" r b) ++ [Event.decExecuting, Event.incComplete]) = 0 := by
    rw [evSum_append, evSum_eq_zero hmid, zero_add]
    decide
  rw [List.suffix_cons_iff] at ht
  rcases ht with rfl | ht
  · left
    simp only [evSum_cons, hmb]
    decide
  · rw [List.suffix_cons_iff] at ht
    rcases ht with rfl | ht
    · left
      simp only [evSum_cons, hmb]
      decide
    · rw [List.suffix_cons_iff] at ht
      rcases ht with rfl | ht
      · right
        simp only [evSum_cons, hmb]
        decide
      · rcases evSum_suffix_append_zero dPEC _ _ hmid t ht with h | h
        · left
          rw [h]; rfl
        · exact hB t h

lemma stepTid_n {s s₁ : Sys} {t : Tid} (h : stepTid s t = some s₁) :
    s₁.n = s.n := by
  cases t with
  | main =>
    cases hm : s.main with
    | nil => simp [stepTid, hm] at h
    | cons e rest =>
      simp only [stepTid, hm] at h
      split at h
      · exact absurd h (by simp)
      · rw [← Option.some.inj h]
  | worker i =>
    simp only [stepTid] at h
    cases hw : s.workers[i]? with
    | none => simp [hw] at h
    | some w =>
      cases w with
      | nil => simp [hw] at h
      | cons e rest =>
        simp only [hw] at h
        split at h
        · rw [← Option.some.inj h]
        · exact absurd h (by simp)

lemma run_n {s s' : Sys} {sched : List Tid} (h : run s sched = some s') :
    s'.n = s.n := by
  induction sched generalizing s with
  | nil => cases h; rfl
  | cons t ts ih =>
    simp only [run] at h
    cases hst : stepTid s t with
    | none => simp [hst] at h
    | some s₁ =>
      simp only [hst] at h
      rw [ih h, stepTid_n hst]

lemma forall₂_mem_left {α β : Type} {R : α → β → Prop} :
    ∀ {l₁ : List α} {l₂ : List β}, List.Forall₂ R l₁ l₂ →
      ∀ {x : α}, x ∈ l₁ → ∃ y ∈ l₂, R x y := by
  intro l₁ l₂ h
  induction h with
  | nil => intro x hx; simp at hx
  | cons hr ht ih =>
    intro x hx
    rcases List.mem_cons.mp hx with rfl | hx
    · exact ⟨_, List.mem_cons_self _ _, hr⟩
    · obtain ⟨y, hy, hxy⟩ := ih hx
      exact ⟨y, List.mem_cons_of_mem _ hy, hxy⟩

lemma evSum_dPEC_split (t : List Event) :
    evSum dPEC t = evSum dPend t + evSum dExec t + evSum dComp t := by
  induction t with
  | nil => rfl
  | cons e es ih =>
    simp only [evSum_cons, ih, dPEC]
    ring

lemma evSum_worker_dPEC (a b : List RawRecord × Bool) (r : String) :
    evSum dPEC (workerEvents a b r) = 0 := by
  rw [evSum_dPEC_split, evSum_worker_dPend, evSum_worker_dExec, evSum_worker_dComp]
  ring

/-- Number of workers the orchestrator has launched so far (= executed
`Pending++` events). -/
def launchedCount (s : Sys) : Nat := min s.n (s.n + 1 - s.main.length)

/-- In every reachable configuration, `pending + executing + complete` is at
most the number of workers launched so far, which is at most the number of
partitions; on completion it equals the number of partitions. -/
lemma pec_bound (regions : List String)
    (smSpec ssmSpec : String → List RawRecord × Bool)
    {sched : List Tid} {s' : Sys}
    (hrun : run (initSys regions smSpec ssmSpec) sched = some s') :
    s'.state.pending + s'.state.executing + s'.state.complete
        ≤ (launchedCount s' : Int)
      ∧ launchedCount s' ≤ regions.length
      ∧ (allDone s' = true →
          s'.state.pending + s'.state.executing + s'.state.complete
            = (regions.length : Int)) := by
  have hn : s'.n = regions.length := by
    rw [run_n hrun]; rfl
  have hinit : remSum dPEC (initSys regions smSpec ssmSpec)
      = (regions.length : Int) := by
    rw [remSum_initSys]
    simp only [evSum_worker_dPEC, evSum_mainProg]
    simp [dPEC, dPend, dExec, dComp, List.map_const', List.sum_replicate,
      nsmul_eq_mul]
  have hμ : s'.state.pending + s'.state.executing + s'.state.complete
      + remSum dPEC s' = (regions.length : Int) := by
    have h := run_measure dPEC
      (fun st => st.pending + st.executing + st.complete) applyEvent_pec
      sched _ _ hrun
    rw [hinit] at h
    simpa [initSys, St.start] using h
  have hW := wShape_run hrun (wShape_initSys regions smSpec ssmSpec)
  have hworkers : 0 ≤ (s'.workers.map (evSum dPEC)).sum := by
    apply List.sum_nonneg
    intro x hx
    obtain ⟨w, hw, rfl⟩ := List.mem_map.mp hx
    obtain ⟨full, hfull, hsuffix⟩ := forall₂_mem_left hW hw
    obtain ⟨r, _, rfl⟩ := List.mem_map.mp hfull
    rcases evSum_dPEC_suffix_worker hsuffix with h | h <;> rw [h] <;> norm_num
  obtain ⟨hstop, hshape⟩ := ctrl_run hrun (ctrl_initSys regions smSpec ssmSpec)
  refine ⟨?_, le_trans (min_le_left _ _) (le_of_eq hn), fun hd => ?_⟩
  · rcases hshape with hm | ⟨k, hk, hm⟩
    · have hlc : launchedCount s' = regions.length := by
        simp [launchedCount, hm, hn]
      have hrs : remSum dPEC s' = (s'.workers.map (evSum dPEC)).sum := by
        simp [remSum, hm, evSum_nil]
      rw [hlc]
      rw [hrs] at hμ
      linarith
    · have hkn : k ≤ regions.length := hn ▸ hk
      have hlen : s'.main.length = k + 1 := by simp [hm]
      have hev : evSum dPEC s'.main = (k : Int) := by
        rw [hm, evSum_append, evSum_replicate, evSum_cons, evSum_nil]
        simp [dPEC, dPend, dExec, dComp, nsmul_eq_mul]
      have hrs : remSum dPEC s' = (k : Int) + (s'.workers.map (evSum dPEC)).sum := by
        rw [remSum, hev]
      have hlc : launchedCount s' = regions.length - k := by
        simp only [launchedCount, hlen, hn]
        omega
      rw [hlc, Nat.cast_sub hkn]
      rw [hrs] at hμ
      linarith
  · have hz := remSum_of_allDone dPEC hd
    rw [hz] at hμ
    linarith

/-! ### A canonical complete schedule

The Go scheduler is free to interleave the goroutines arbitrarily; to show
that every run can actually complete (the orchestrator never deadlocks and no
error aborts the run) we exhibit one complete schedule: launch all workers,
drain each worker in order, then deliver the shutdown acknowledgement. -/

def drainSched : Nat → List (List Event) → List Tid
  | _, [] => []
  | i, w :: ws => List.replicate w.length (Tid.worker i) ++ drainSched (i + 1) ws

def seqSched (s : Sys) : List Tid :=
  List.replicate s.n Tid.main ++ drainSched 0 s.workers ++ [Tid.main]

lemma run_append (s : Sys) (a b : List Tid) :
    run s (a ++ b) = (run s a).bind (fun s₁ => run s₁ b) := by
  induction a generalizing s with
  | nil => simp [run]
  | cons t ts ih =>
    simp only [List.cons_append, run]
    cases h : stepTid s t with
    | none => simp
    | some s₁ => simp [ih]

lemma set_getElem?_self {α : Type} : ∀ (l : List α) (i : Nat) (x : α),
    l[i]? = some x → l.set i x = l := by
  intro l
  induction l with
  | nil => intro i x hx; simp at hx
  | cons a t ih =>
    intro i x hx
    cases i with
    | zero =>
      simp only [List.getElem?_cons_zero, Option.some.injEq] at hx
      subst hx
      rfl
    | succ j =>
      simp only [List.getElem?_cons_succ] at hx
      simp only [List.set]
      rw [ih j x hx]

lemma set_append_cons {α : Type} : ∀ (pre : List α) (w x : α) (ws : List α),
    (pre ++ w :: ws).set pre.length x = pre ++ x :: ws := by
  intro pre
  induction pre with
  | nil => intro w x ws; rfl
  | cons a t ih =>
    intro w x ws
    simp only [List.cons_append, List.length_cons, List.set]
    show a :: (t ++ w :: ws).set t.length x = a :: (t ++ x :: ws)
    rw [ih]

lemma getElem?_append_cons {α : Type} : ∀ (pre : List α) (w : α) (ws : List α),
    (pre ++ w :: ws)[pre.length]? = some w := by
  intro pre
  induction pre with
  | nil => intro w ws; simp
  | cons a t ih => intro w ws; simpa using ih w ws

lemma run_main_replicate :
    ∀ (k : Nat) (s : Sys) (rest : List Event),
      s.main = List.replicate k Event.incPending ++ rest →
      ∃ s₁, run s (List.replicate k Tid.main) = some s₁ ∧
        s₁.main = rest ∧ s₁.workers = s.workers ∧ s₁.n = s.n := by
  intro k
  induction k with
  | zero =>
    intro s rest h
    exact ⟨s, rfl, by simpa using h, rfl, rfl⟩
  | succ j ih =>
    intro s rest h
    have hm : s.main = Event.incPending ::
        (List.replicate j Event.incPending ++ rest) := by
      simpa [List.replicate] using h
    have hstep : stepTid s Tid.main = some { s with
        main := List.replicate j Event.incPending ++ rest,
        state := applyEvent s.state .incPending } := by
      simp [stepTid, hm]
    have hrep : List.replicate (j + 1) Tid.main
        = Tid.main :: List.replicate j Tid.main := by
      simp [List.replicate]
    rw [hrep]
    simp only [run, hstep]
    obtain ⟨s₂, hrun₂, hm₂, hw₂, hn₂⟩ := ih { s with main := List.replicate j Event.incPending ++ rest, state := applyEvent s.state Event.incPending } rest rfl
    exact ⟨s₂, hrun₂, hm₂, hw₂, hn₂⟩

lemma run_worker_drain :
    ∀ (w : List Event) (s : Sys) (i : Nat),
      s.main = [Event.stopAck] → s.workers.length = s.n → i < s.n →
      s.workers[i]? = some w →
      ∃ s₁, run s (List.replicate w.length (Tid.worker i)) = some s₁ ∧
        s₁.main = [Event.stopAck] ∧ s₁.workers = s.workers.set i []
          ∧ s₁.n = s.n := by
  intro w
  induction w with
  | nil =>
    intro s i hm hlen hi hw
    exact ⟨s, rfl, hm, (set_getElem?_self s.workers i [] hw).symm, rfl⟩
  | cons e rest ih =>
    intro s i hm hlen hi hw
    have hl : launched s i = true := by
      simp only [launched, Bool.and_eq_true, decide_eq_true_eq]
      refine ⟨hi, ?_⟩
      rw [hm]
      simp
      omega
    have hstep : stepTid s (Tid.worker i) = some { s with
        workers := s.workers.set i rest, state := applyEvent s.state e } := by
      simp [stepTid, hw, hl]
    have hrep : List.replicate (e :: rest).length (Tid.worker i)
        = Tid.worker i :: List.replicate rest.length (Tid.worker i) := by
      simp [List.replicate]
    rw [hrep]
    simp only [run, hstep]
    have hw₁ : (s.workers.set i rest)[i]? = some rest :=
      List.getElem?_set_self (by rw [hlen]; exact hi)
    obtain ⟨s₂, hrun₂, hm₂, hw₂, hn₂⟩ := ih
      { s with workers := s.workers.set i rest, state := applyEvent s.state e }
      i hm (by simp [hlen]) hi hw₁
    refine ⟨s₂, hrun₂, hm₂, ?_, hn₂⟩
    rw [hw₂]
    exact List.set_set rest [] s.workers i

lemma run_drain_from :
    ∀ (ws pre : List (List Event)) (s : Sys),
      s.main = [Event.stopAck] → s.workers.length = s.n →
      s.workers = pre ++ ws →
      ∃ s₁, run s (drainSched pre.length ws) = some s₁ ∧
        s₁.main = [Event.stopAck] ∧ s₁.n = s.n ∧
        s₁.workers = pre ++ ws.map (fun _ => ([] : List Event)) := by
  intro ws
  induction ws with
  | nil =>
    intro pre s hm hlen hw
    exact ⟨s, rfl, hm, rfl, by simpa using hw⟩
  | cons w ws' ih =>
    intro pre s hm hlen hw
    have hi : pre.length < s.n := by
      rw [← hlen, hw]
      simp
    have hget : s.workers[pre.length]? = some w := by
      rw [hw]
      exact getElem?_append_cons pre w ws'
    obtain ⟨s₁, hrun₁, hm₁, hw₁, hn₁⟩ :=
      run_worker_drain w s pre.length hm hlen hi hget
    have hw₁' : s₁.workers = (pre ++ [[]]) ++ ws' := by
      rw [hw₁, hw, set_append_cons]
      simp
    have hlen₁ : s₁.workers.length = s₁.n := by
      rw [hw₁, hn₁, List.length_set, hlen]
    obtain ⟨s₂, hrun₂, hm₂, hn₂, hw₂⟩ := ih (pre ++ [[]]) s₁ hm₁ hlen₁ hw₁'
    refine ⟨s₂, ?_, hm₂, by rw [hn₂, hn₁], ?_⟩
    · simp only [drainSched]
      rw [run_append, hrun₁]
      simpa using hrun₂
    · rw [hw₂]
      simp

/-- The canonical schedule runs every configuration built by `initSys` to
completion. -/
lemma run_seqSched (regions : List String)
    (smSpec ssmSpec : String → List RawRecord × Bool) :
    ∃ final, run (initSys regions smSpec ssmSpec)
        (seqSched (initSys regions smSpec ssmSpec)) = some final ∧
      allDone final = true := by
  obtain ⟨s₁, hrun₁, hm₁, hw₁, hn₁⟩ := run_main_replicate
    (initSys regions smSpec ssmSpec).n (initSys regions smSpec ssmSpec)
    [Event.stopAck] (by simp [initSys, mainProg])
  have hlen₁ : s₁.workers.length = s₁.n := by
    rw [hw₁, hn₁]
    simp [initSys]
  obtain ⟨s₂, hrun₂, hm₂, hn₂, hw₂⟩ :=
    run_drain_from s₁.workers [] s₁ hm₁ hlen₁ rfl
  have hall : s₂.workers.all List.isEmpty = true := by
    rw [hw₂]
    simp only [List.nil_append, List.all_eq_true]
    intro x hx
    obtain ⟨y, _, rfl⟩ := List.mem_map.mp hx
    rfl
  have hstep : stepTid s₂ Tid.main = some { s₂ with main := [] } := by
    simp [stepTid, hm₂, hall, applyEvent]
  refine ⟨{ s₂ with main := [] }, ?_, ?_⟩
  · rw [seqSched, ← hw₁, run_append, run_append, hrun₁]
    show ((run s₁ (drainSched 0 s₁.workers)).bind fun s => run s [Tid.main])
      = some _
    have h0 : drainSched 0 s₁.workers
        = drainSched ([] : List (List Event)).length s₁.workers := rfl
    rw [h0, hrun₂]
    show run s₂ [Tid.main] = some _
    simp [run, hstep]
  · show allDone { s₂ with main := [] } = true
    simp [allDone, hall]

/-! ### Pagination chains: termination and token order -/

/-- `IsChain fetch tok toks`: starting from request token `tok` the source
answers with successful pages whose continuation tokens are exactly `toks` in
order, the last page carrying no continuation token (`NextToken == nil`). -/
def IsChain (fetch : Option String → FetchResult) :
    Option String → List String → Prop
  | tok, [] => ∃ recs, fetch tok = FetchResult.ok recs none
  | tok, t :: ts => ∃ recs, fetch tok = FetchResult.ok recs (some t)
      ∧ IsChain fetch (some t) ts

lemma paginate_chain (fetch : Option String → FetchResult) :
    ∀ (toks : List String) (tok : Option String) (fuel : Nat),
      IsChain fetch tok toks → toks.length + 1 ≤ fuel →
      ∃ recs, paginate fetch fuel tok = some (recs, false, tok :: toks.map some) := by
  intro toks
  induction toks with
  | nil =>
    intro tok fuel h hf
    obtain ⟨recs, hr⟩ := h
    cases fuel with
    | zero => omega
    | succ f => exact ⟨recs, by simp [paginate, hr]⟩
  | cons t ts ih =>
    intro tok fuel h hf
    obtain ⟨recs, hr, hc⟩ := h
    cases fuel with
    | zero => simp at hf
    | succ f =>
      obtain ⟨rest, hrest⟩ := ih (some t) f hc (by
        simp only [List.length_cons] at hf
        omega)
      exact ⟨recs ++ rest, by simp [paginate, hr, hrest]⟩

/-! ### The submissions contained in an event list -/

def submitOf : Event → Option Secret
  | .submit s => some s
  | _ => none

def submitsOf (es : List Event) : List Secret :=
  es.filterMap submitOf

lemma filterMap_some_map {α β : Type} (f : α → β) : ∀ (l : List α),
    l.filterMap (fun x => some (f x)) = l.map f := by
  intro l
  induction l with
  | nil => rfl
  | cons a t ih => simp [List.filterMap_cons, ih]

lemma submitsOf_workerEvents (a b : List RawRecord × Bool) (r : String) :
    submitsOf (workerEvents a b r) = regionEmits a b r := by
  rcases a with ⟨ra, ea⟩
  rcases b with ⟨rb, eb⟩
  cases ea <;> cases eb <;>
    simp [submitsOf, workerEvents, sourceEvents, regionEmits,
      List.filterMap_append, List.filterMap_map, Function.comp_def, submitOf,
      filterMap_some_map]

/-! ### Services occurring in a finished collection -/

lemma mem_multiset_list_sum {α β : Type} {f : β → Multiset α} :
    ∀ {l : List β} {x : α}, x ∈ (l.map f).sum → ∃ a ∈ l, x ∈ f a := by
  intro l
  induction l with
  | nil => intro x hx; simp at hx
  | cons b t ih =>
    intro x hx
    simp only [List.map, List.sum_cons, Multiset.mem_add] at hx
    rcases hx with hx | hx
    · exact ⟨b, List.mem_cons_self _ _, hx⟩
    · obtain ⟨a, ha, hxa⟩ := ih hx
      exact ⟨a, List.mem_cons_of_mem _ ha, hxa⟩

/-- Every secret in the collection of a completed run was produced by
`toSecret` with one of the two service tags. -/
lemma collection_services (regions : List String)
    (smSpec ssmSpec : String → List RawRecord × Bool)
    {sched : List Tid} {s' : Sys}
    (hrun : run (initSys regions smSpec ssmSpec) sched = some s')
    (hdone : allDone s' = true) :
    ∀ sec ∈ s'.state.collection,
      sec.AWSService = "SecretsManager" ∨ sec.AWSService = "SSM" := by
  intro sec hsec
  have hcoll := (final_state regions smSpec ssmSpec hrun hdone).2.2.2.2.2.1
  have hmem : sec ∈ (s'.state.collection : Multiset Secret) := by simpa using hsec
  rw [hcoll] at hmem
  obtain ⟨r, _, hr⟩ := mem_multiset_list_sum hmem
  have : sec ∈ regionEmits (smSpec r) (ssmSpec r) r := by simpa using hr
  simp only [regionEmits, List.mem_append] at this
  rcases this with h | h
  · obtain ⟨rec, _, rfl⟩ := List.mem_map.mp h
    exact Or.inl rfl
  · obtain ⟨rec, _, rfl⟩ := List.mem_map.mp h
    exact Or.inr rfl

/-- The emissions of the sources that did not fail. -/
def succEmits (smSpec ssmSpec : String → List RawRecord × Bool) (r : String) :
    Multiset Secret :=
  (if (smSpec r).2 then 0
    else ((smSpec r).1.map (toSecret "SecretsManager" r) : Multiset Secret))
  + (if (ssmSpec r).2 then 0
    else ((ssmSpec r).1.map (toSecret "SSM" r) : Multiset Secret))

/-! ### Output and loot stage -/

/-- The table rows `m.output.Body`: one row per secret with the columns
Service, Region, Name, Description. -/
def outputBody (secrets : List Secret) : List (List String) :=
  secrets.map (fun s => [s.AWSService, s.Region, s.Name, s.Description])

/-- The final console report of `PrintSecrets` (ANSI colouring elided): the
row count when any secrets were found, otherwise the explicit "No secrets
found" message. -/
def finalReport (body : List (List String)) : String :=
  if body.length > 0 then
    "[secrets] " ++ toString body.length ++ " secrets found.\n"
  else
    "[secrets] No secrets found, skipping the creation of an output file.\n"

/-- One iteration of `writeLoot`'s command loop: a SecretsManager pull
command when the service is "SecretsManager", plus an SSM pull command when
it is "SSM". -/
def lootLine (s : Secret) : String :=
  (if s.AWSService = "SecretsManager" then
    "aws --profile $profile --region " ++ s.Region
      ++ " secretsmanager get-secret-value --secret-id " ++ s.Name ++ "\n"
  else "")
  ++ (if s.AWSService = "SSM" then
    "aws --profile $profile --region " ++ s.Region
      ++ " ssm get-parameter --with-decryption --name " ++ s.Name ++ "\n"
  else "")

/-- The command portion of the loot file: `writeLoot` folds over `m.Secrets`
in order, appending each secret's command to the output string. -/
def lootBody (secrets : List Secret) : String :=
  secrets.foldl (fun out s => out ++ lootLine s) ""

/-- One command line per secret, concatenated in collection order. -/
def joinCmds : List Secret → String
  | [] => ""
  | s :: t => lootLine s ++ joinCmds t

lemma lootBody_go : ∀ (secrets : List Secret) (acc : String),
    secrets.foldl (fun out s => out ++ lootLine s) acc = acc ++ joinCmds secrets := by
  intro secrets
  induction secrets with
  | nil => intro acc; simp [joinCmds]
  | cons a t ih =>
    intro acc
    simp only [List.foldl, joinCmds]
    rw [ih, String.append_assoc]

lemma lootBody_eq (secrets : List Secret) : lootBody secrets = joinCmds secrets := by
  rw [lootBody, lootBody_go]
  simp

/-! ### Profile fallback and output path -/

/-- The profile fallback at the top of `PrintSecrets`: an empty `AWSProfile`
is replaced by `"<account>-<userId>"` from the caller identity
(`aws.ToString` turns a nil pointer into the empty string); a non-empty
profile is kept unchanged. -/
def resolveProfile (awsProfile : String)
    (callerAccount callerUserId : Option String) : String :=
  if awsProfile = "" then callerAccount.getD "" ++ "-" ++ callerUserId.getD ""
  else awsProfile

/-- The output path later formed in `PrintSecrets` from the (possibly
replaced) profile, with the path join modelled as separator concatenation. -/
def outputPath (outputDirectory profile : String) : String :=
  outputDirectory ++ "/cloudfox-output/aws/" ++ profile

/-! ### The claims -/

/-- C1: for every finite set of regions and both sources (SecretsManager and
SSM), if every list call succeeds, then after a completed run `m.Secrets`
contains exactly one `Secret` per raw record returned across every page of
every source of every region: its length equals the total record count, and
as a multiset it is exactly the sum of the per-region emissions — no
duplication, no loss. -/
theorem c1_completeness (regions : List String)
    (fetchSM fetchSSM : String → Option String → FetchResult) (fuel : Nat)
    (smRes ssmRes : String → List RawRecord)
    (hsm : ∀ r ∈ regions, ∃ toks,
      paginate (fetchSM r) fuel none = some (smRes r, false, toks))
    (hssm : ∀ r ∈ regions, ∃ toks,
      paginate (fetchSSM r) fuel none = some (ssmRes r, false, toks))
    (sys : Sys) (hinit : initSys? regions fetchSM fetchSSM fuel = some sys)
    (sched : List Tid) (s' : Sys) (hrun : run sys sched = some s')
    (hdone : allDone s' = true) :
    s'.state.collection.length
        = (regions.map (fun r => (smRes r).length + (ssmRes r).length)).sum
      ∧ (s'.state.collection : Multiset Secret)
        = (regions.map (fun r =>
            ((regionEmits (smRes r, false) (ssmRes r, false) r : List Secret)
              : Multiset Secret))).sum := by
  have hsys : sys = initSys regions (fun r => (smRes r, false))
      (fun r => (ssmRes r, false)) :=
    Option.some.inj (hinit.symm.trans (initSys?_eq regions fetchSM fetchSSM fuel
      (fun r => (smRes r, false)) (fun r => (ssmRes r, false)) hsm hssm))
  subst hsys
  have hfs := final_state regions (fun r => (smRes r, false))
    (fun r => (ssmRes r, false)) hrun hdone
  exact ⟨hfs.2.2.2.2.2.2, hfs.2.2.2.2.2.1⟩

/-- C2: the shutdown acknowledgement is never observed before every worker's
submissions have been drained into `m.Secrets`: in any run in which the
acknowledgement has been executed (the orchestrator's program is exhausted),
with every region's worker submitting `M` secrets, the collection holds
exactly `N·M` secrets (`N` = number of regions), and no continuation of the
run can change the system — in particular the collection is never mutated
after the acknowledgement. -/
theorem c2_shutdown_ordering (regions : List String)
    (fetchSM fetchSSM : String → Option String → FetchResult) (fuel : Nat)
    (smSpec ssmSpec : String → List RawRecord × Bool) (M : Nat)
    (hsm : ∀ r ∈ regions, ∃ toks,
      paginate (fetchSM r) fuel none = some ((smSpec r).1, (smSpec r).2, toks))
    (hssm : ∀ r ∈ regions, ∃ toks,
      paginate (fetchSSM r) fuel none = some ((ssmSpec r).1, (ssmSpec r).2, toks))
    (hM : ∀ r ∈ regions, (smSpec r).1.length + (ssmSpec r).1.length = M)
    (sys : Sys) (hinit : initSys? regions fetchSM fetchSSM fuel = some sys)
    (sched : List Tid) (s' : Sys) (hrun : run sys sched = some s')
    (hstopped : s'.main = []) :
    s'.state.collection.length = regions.length * M
      ∧ ∀ (sched' : List Tid) (s'' : Sys), run s' sched' = some s'' → s'' = s' := by
  have hsys : sys = initSys regions smSpec ssmSpec :=
    Option.some.inj (hinit.symm.trans
      (initSys?_eq regions fetchSM fetchSSM fuel smSpec ssmSpec hsm hssm))
  subst hsys
  have hctrl := ctrl_run hrun (ctrl_initSys regions smSpec ssmSpec)
  have hwempty : ∀ w ∈ s'.workers, w = [] := hctrl.1 hstopped
  have hdone : allDone s' = true := by
    simp only [allDone, Bool.and_eq_true, List.isEmpty_iff, List.all_eq_true]
    exact ⟨hstopped, hwempty⟩
  have hlen := (final_state regions smSpec ssmSpec hrun hdone).2.2.2.2.2.2
  constructor
  · rw [hlen, List.map_congr_left (fun r hr => hM r hr)]
    simp [List.map_const', List.sum_replicate, smul_eq_mul, Nat.mul_comm]
  · exact run_frozen hstopped hwempty

/-- C3: at the end of a completed run over any regions — no matter how many
sources errored — the counters satisfy `Pending = 0`, `Executing = 0` and
`Complete = #regions`. -/
theorem c3_counter_convergence (regions : List String)
    (fetchSM fetchSSM : String → Option String → FetchResult) (fuel : Nat)
    (smSpec ssmSpec : String → List RawRecord × Bool)
    (hsm : ∀ r ∈ regions, ∃ toks,
      paginate (fetchSM r) fuel none = some ((smSpec r).1, (smSpec r).2, toks))
    (hssm : ∀ r ∈ regions, ∃ toks,
      paginate (fetchSSM r) fuel none = some ((ssmSpec r).1, (ssmSpec r).2, toks))
    (sys : Sys) (hinit : initSys? regions fetchSM fetchSSM fuel = some sys)
    (sched : List Tid) (s' : Sys) (hrun : run sys sched = some s')
    (hdone : allDone s' = true) :
    s'.state.pending = 0 ∧ s'.state.executing = 0
      ∧ s'.state.complete = (regions.length : Int) := by
  have hsys : sys = initSys regions smSpec ssmSpec :=
    Option.some.inj (hinit.symm.trans
      (initSys?_eq regions fetchSM fetchSSM fuel smSpec ssmSpec hsm hssm))
  subst hsys
  have hfs := final_state regions smSpec ssmSpec hrun hdone
  exact ⟨hfs.1, hfs.2.1, hfs.2.2.1⟩

/-- C4, counterexample: with two regions, after the orchestrator's first
`Pending++` and the first worker's first statement (`Total++`), a worker has
already been launched and is running, yet `pending = 1 ≠ 2` — so pending is
NOT set to the number of partitions before any worker is launched — and
`pending + executing + complete = 1 ≠ 2 = totalPartitionsScheduled`, so the
claimed equality does not hold at all times. -/
theorem c4_counterexample :
    ((initSys? ["us-east-1", "us-west-2"]
        (fun _ _ => FetchResult.ok [] none) (fun _ _ => FetchResult.ok [] none)
        1).bind
      (fun sys => run sys [Tid.main, Tid.worker 0])).map
      (fun s => (s.n, s.state.total, s.state.pending,
        s.state.pending + s.state.executing + s.state.complete))
      = some (2, 1, 1, 1) := by
  decide

/-- C4 (amended): the orchestrator increments `pending` once per region,
immediately before launching that region's worker, instead of setting
`pending = #partitions` before any launch; accordingly, at every reachable
configuration `pending + executing + complete` is at most the number of
workers launched so far — itself at most `#partitions` — and equality
`pending + executing + complete = #partitions` holds at run end. -/
theorem c4_launch_invariant (regions : List String)
    (fetchSM fetchSSM : String → Option String → FetchResult) (fuel : Nat)
    (smSpec ssmSpec : String → List RawRecord × Bool)
    (hsm : ∀ r ∈ regions, ∃ toks,
      paginate (fetchSM r) fuel none = some ((smSpec r).1, (smSpec r).2, toks))
    (hssm : ∀ r ∈ regions, ∃ toks,
      paginate (fetchSSM r) fuel none = some ((ssmSpec r).1, (ssmSpec r).2, toks))
    (sys : Sys) (hinit : initSys? regions fetchSM fetchSSM fuel = some sys)
    (sched : List Tid) (s' : Sys) (hrun : run sys sched = some s') :
    s'.state.pending + s'.state.executing + s'.state.complete
        ≤ (launchedCount s' : Int)
      ∧ launchedCount s' ≤ regions.length
      ∧ (allDone s' = true →
          s'.state.pending + s'.state.executing + s'.state.complete
            = (regions.length : Int)) := by
  have hsys : sys = initSys regions smSpec ssmSpec :=
    Option.some.inj (hinit.symm.trans
      (initSys?_eq regions fetchSM fetchSSM fuel smSpec ssmSpec hsm hssm))
  subst hsys
  exact pec_bound regions smSpec ssmSpec hrun

/-- C5: if a source of one region `p` fails (its loop stops after tallying an
error) while the other sources run as given, then after a completed run the
collection still contains every secret the non-failing sources emitted, the
error counter is at least 1, and every region's worker still bumped
`Complete` exactly once (`Complete = #regions`). -/
theorem c5_partial_failure_isolation (regions : List String)
    (fetchSM fetchSSM : String → Option String → FetchResult) (fuel : Nat)
    (smSpec ssmSpec : String → List RawRecord × Bool)
    (hsm : ∀ r ∈ regions, ∃ toks,
      paginate (fetchSM r) fuel none = some ((smSpec r).1, (smSpec r).2, toks))
    (hssm : ∀ r ∈ regions, ∃ toks,
      paginate (fetchSSM r) fuel none = some ((ssmSpec r).1, (ssmSpec r).2, toks))
    (p : String) (hp : p ∈ regions)
    (hfail : (smSpec p).2 = true ∨ (ssmSpec p).2 = true)
    (sys : Sys) (hinit : initSys? regions fetchSM fetchSSM fuel = some sys)
    (sched : List Tid) (s' : Sys) (hrun : run sys sched = some s')
    (hdone : allDone s' = true) :
    (regions.map (succEmits smSpec ssmSpec)).sum
        ≤ (s'.state.collection : Multiset Secret)
      ∧ 1 ≤ s'.state.error
      ∧ s'.state.complete = (regions.length : Int) := by
  have hsys : sys = initSys regions smSpec ssmSpec :=
    Option.some.inj (hinit.symm.trans
      (initSys?_eq regions fetchSM fetchSSM fuel smSpec ssmSpec hsm hssm))
  subst hsys
  have hfs := final_state regions smSpec ssmSpec hrun hdone
  refine ⟨?_, ?_, hfs.2.2.1⟩
  · rw [hfs.2.2.2.2.2.1]
    apply List.sum_le_sum
    intro r _
    have hre : ((regionEmits (smSpec r) (ssmSpec r) r : List Secret) : Multiset Secret)
        = ((smSpec r).1.map (toSecret "SecretsManager" r) : Multiset Secret)
          + ((ssmSpec r).1.map (toSecret "SSM" r) : Multiset Secret) := by
      simp [regionEmits, ← Multiset.coe_add]
    rw [hre, succEmits]
    apply add_le_add
    · split
      · exact Multiset.zero_le _
      · exact le_refl _
    · split
      · exact Multiset.zero_le _
      · exact le_refl _
  · rw [hfs.2.2.2.2.1]
    have hnon : ∀ x ∈ regions.map (fun r =>
        (if (smSpec r).2 then (1 : Int) else 0)
          + (if (ssmSpec r).2 then (1 : Int) else 0)), (0 : Int) ≤ x := by
      intro x hx
      obtain ⟨r, _, rfl⟩ := List.mem_map.mp hx
      split <;> split <;> norm_num
    have hle : (if (smSpec p).2 then (1 : Int) else 0)
        + (if (ssmSpec p).2 then (1 : Int) else 0)
        ≤ (regions.map (fun r =>
            (if (smSpec r).2 then (1 : Int) else 0)
              + (if (ssmSpec r).2 then (1 : Int) else 0))).sum :=
      List.single_le_sum hnon _
        (List.mem_map_of_mem (fun r =>
          (if (smSpec r).2 then (1 : Int) else 0)
            + (if (ssmSpec r).2 then (1 : Int) else 0)) hp)
    have h1 : (1 : Int) ≤ (if (smSpec p).2 then (1 : Int) else 0)
        + (if (ssmSpec p).2 then (1 : Int) else 0) := by
      rcases hfail with h | h <;> rw [h] <;> simp <;> split <;> norm_num
    linarith

/-- C6: a source whose token chain from the initial nil request token is
finite (of length `toks.length`, ending in a page with nil `NextToken`) makes
the pagination loop terminate after exactly `toks.length + 1` calls, and the
calls are issued strictly sequentially in token order: the call-token list is
exactly nil followed by the returned continuation tokens in order. -/
theorem c6_pagination_termination (fetch : Option String → FetchResult)
    (toks : List String) (fuel : Nat)
    (hchain : IsChain fetch none toks) (hfuel : toks.length + 1 ≤ fuel) :
    ∃ recs, paginate fetch fuel none = some (recs, false, none :: toks.map some)
      ∧ (none :: toks.map some).length = toks.length + 1 := by
  obtain ⟨recs, h⟩ := paginate_chain fetch toks none fuel hchain hfuel
  exact ⟨recs, h, by simp⟩

/-- C7: for every raw record of a successful page the worker submits exactly
one `Secret`: the submissions of a region's worker are, in order, one per
SecretsManager record then one per SSM record, each carrying the producing
service's tag, the current region, the record's name, and its description —
which is the empty string whenever the record has none. -/
theorem c7_item_construction (a b : List RawRecord × Bool) (r : String) :
    submitsOf (workerEvents a b r)
        = a.1.map (fun rec =>
            Secret.mk "SecretsManager" r (rec.name.getD "") (rec.description.getD ""))
          ++ b.1.map (fun rec =>
            Secret.mk "SSM" r (rec.name.getD "") (rec.description.getD ""))
      ∧ ∀ rec : RawRecord, rec.description = none →
          (toSecret "SecretsManager" r rec).Description = ""
            ∧ (toSecret "SSM" r rec).Description = "" := by
  constructor
  · rw [submitsOf_workerEvents, regionEmits]
    exact rfl
  · intro rec h
    simp [toSecret, h]

/-- C8: no error aborts the run — every configuration (fetch failures
included) has a complete schedule; zero regions is a legal zero-work run
producing an empty collection; and the final report always states the
observed count: the row count when positive, the explicit "No secrets found"
message when zero (distinguishing "zero found" from "did not execute"). -/
theorem c8_no_abort_and_report (regions : List String)
    (fetchSM fetchSSM : String → Option String → FetchResult) (fuel : Nat)
    (smSpec ssmSpec : String → List RawRecord × Bool)
    (hsm : ∀ r ∈ regions, ∃ toks,
      paginate (fetchSM r) fuel none = some ((smSpec r).1, (smSpec r).2, toks))
    (hssm : ∀ r ∈ regions, ∃ toks,
      paginate (fetchSSM r) fuel none = some ((ssmSpec r).1, (ssmSpec r).2, toks))
    (sys : Sys) (hinit : initSys? regions fetchSM fetchSSM fuel = some sys) :
    ∃ final, run sys (seqSched sys) = some final ∧ allDone final = true
      ∧ (outputBody final.state.collection).length = final.state.collection.length
      ∧ (final.state.collection.length = 0 →
          finalReport (outputBody final.state.collection)
            = "[secrets] No secrets found, skipping the creation of an output file.\n")
      ∧ (0 < final.state.collection.length →
          finalReport (outputBody final.state.collection)
            = "[secrets] " ++ toString final.state.collection.length
                ++ " secrets found.\n")
      ∧ (regions = [] → final.state.collection = []) := by
  have hsys : sys = initSys regions smSpec ssmSpec :=
    Option.some.inj (hinit.symm.trans
      (initSys?_eq regions fetchSM fetchSSM fuel smSpec ssmSpec hsm hssm))
  subst hsys
  obtain ⟨final, hrun, hdone⟩ := run_seqSched regions smSpec ssmSpec
  refine ⟨final, hrun, hdone, by simp [outputBody], ?_, ?_, ?_⟩
  · intro h0
    simp [finalReport, outputBody, h0]
  · intro hpos
    simp [finalReport, outputBody, Nat.pos_iff_ne_zero.mp hpos, hpos]
  · intro hreg
    subst hreg
    have := (final_state [] smSpec ssmSpec hrun hdone).2.2.2.2.2.1
    simpa using this

/-- C9: for every secret in the finished collection the loot stage emits
exactly one pull command: `writeLoot`'s command output is the concatenation,
in collection order, of one line per secret, and that line is the
SecretsManager `get-secret-value` form exactly when the secret's service is
"SecretsManager" and the SSM `get-parameter` form exactly when it is "SSM",
embedding the secret's region and name verbatim. -/
theorem c9_loot_reconstruction (regions : List String)
    (fetchSM fetchSSM : String → Option String → FetchResult) (fuel : Nat)
    (smSpec ssmSpec : String → List RawRecord × Bool)
    (hsm : ∀ r ∈ regions, ∃ toks,
      paginate (fetchSM r) fuel none = some ((smSpec r).1, (smSpec r).2, toks))
    (hssm : ∀ r ∈ regions, ∃ toks,
      paginate (fetchSSM r) fuel none = some ((ssmSpec r).1, (ssmSpec r).2, toks))
    (sys : Sys) (hinit : initSys? regions fetchSM fetchSSM fuel = some sys)
    (sched : List Tid) (s' : Sys) (hrun : run sys sched = some s')
    (hdone : allDone s' = true) :
    lootBody s'.state.collection = joinCmds s'.state.collection
      ∧ ∀ sec ∈ s'.state.collection,
        (sec.AWSService = "SecretsManager" ∧ lootLine sec
            = "aws --profile $profile --region " ++ sec.Region
              ++ " secretsmanager get-secret-value --secret-id " ++ sec.Name
              ++ "\n")
        ∨ (sec.AWSService = "SSM" ∧ lootLine sec
            = "aws --profile $profile --region " ++ sec.Region
              ++ " ssm get-parameter --with-decryption --name " ++ sec.Name
              ++ "\n") := by
  have hsys : sys = initSys regions smSpec ssmSpec :=
    Option.some.inj (hinit.symm.trans
      (initSys?_eq regions fetchSM fetchSSM fuel smSpec ssmSpec hsm hssm))
  subst hsys
  refine ⟨lootBody_eq _, ?_⟩
  intro sec hsec
  rcases collection_services regions smSpec ssmSpec hrun hdone sec hsec with h | h
  · left
    refine ⟨h, ?_⟩
    rw [lootLine, if_pos h, if_neg (by rw [h]; simp)]
    simp
  · right
    refine ⟨h, ?_⟩
    rw [lootLine, if_neg (by rw [h]; simp), if_pos h]
    simp

/-- C10: when `AWSProfile` is empty at the start of `PrintSecrets` it is set
to `"<account>-<userId>"` from the caller identity, and the output path is
then formed from that derived profile; a non-empty `AWSProfile` is left
unchanged. -/
theorem c10_profile_fallback (p : String) (acct uid : Option String)
    (d : String) :
    (p = "" → resolveProfile p acct uid = acct.getD "" ++ "-" ++ uid.getD ""
      ∧ outputPath d (resolveProfile p acct uid)
        = d ++ "/cloudfox-output/aws/" ++ (acct.getD "" ++ "-" ++ uid.getD ""))
    ∧ (p ≠ "" → resolveProfile p acct uid = p) := by
  constructor
  · intro h
    constructor
    · simp [resolveProfile, h]
    · simp [resolveProfile, outputPath, h]
  · intro h
    simp [resolveProfile, h]

/-! ### Concrete instances -/

def recA : RawRecord := ⟨some "alpha", some "da"⟩

def recB : RawRecord := ⟨some "beta", none⟩

def fetchA : String → Option String → FetchResult :=
  fun _ _ => FetchResult.ok [recA] none

def fetchB : String → Option String → FetchResult :=
  fun _ _ => FetchResult.ok [recB] none

def fetchF : String → Option String → FetchResult :=
  fun _ _ => FetchResult.fail

def wsysAB : Sys := (initSys? ["r1"] fetchA fetchB 1).getD default

def wfinalAB : Sys := (run wsysAB (seqSched wsysAB)).getD default

def wmidAB : Sys := (run wsysAB [Tid.main]).getD default

def wsysAF : Sys := (initSys? ["r1"] fetchA fetchF 1).getD default

def wfinalAF : Sys := (run wsysAF (seqSched wsysAF)).getD default

def wsysFF : Sys := (initSys? ["r1"] fetchF fetchF 1).getD default

def fetchSMx : String → Option String → FetchResult := fun r _ =>
  if r = "us-east-1" then
    FetchResult.ok [⟨some "a1", none⟩, ⟨some "a2", none⟩] none
  else FetchResult.ok [⟨some "w1", none⟩] none

def fetchSSMx : String → Option String → FetchResult := fun r _ =>
  if r = "us-east-1" then FetchResult.fail
  else FetchResult.ok [⟨some "w2", none⟩] none

def wsysX : Sys :=
  (initSys? ["us-east-1", "us-west-2"] fetchSMx fetchSSMx 1).getD default

def wfinalX : Sys := (run wsysX (seqSched wsysX)).getD default

def chainFetch : Option String → FetchResult
  | none => FetchResult.ok [⟨some "p1", none⟩] (some "t1")
  | some _ => FetchResult.ok [⟨some "p2", none⟩] none

/-! ### Witnesses -/

theorem c1_completeness_witness :
    (∀ r ∈ ["r1"], ∃ toks,
        paginate (fetchA r) 1 none = some ([recA], false, toks))
      ∧ initSys? ["r1"] fetchA fetchB 1 = some wsysAB
      ∧ run wsysAB (seqSched wsysAB) = some wfinalAB
      ∧ wfinalAB.state.collection.length
          = ((["r1"] : List String).map
              (fun _ => [recA].length + [recB].length)).sum := by
  refine ⟨fun r _ => ⟨[none], rfl⟩, rfl, rfl, ?_⟩
  exact (c1_completeness ["r1"] fetchA fetchB 1 (fun _ => [recA]) (fun _ => [recB])
    (fun r _ => ⟨[none], rfl⟩) (fun r _ => ⟨[none], rfl⟩)
    wsysAB rfl (seqSched wsysAB) wfinalAB rfl (by decide)).1

theorem c2_shutdown_ordering_witness :
    wfinalAB.main = [] ∧ wfinalAB.state.collection.length = 1 * 2 := by
  refine ⟨by decide, ?_⟩
  exact (c2_shutdown_ordering ["r1"] fetchA fetchB 1
    (fun _ => ([recA], false)) (fun _ => ([recB], false)) 2
    (fun r _ => ⟨[none], rfl⟩) (fun r _ => ⟨[none], rfl⟩) (fun r _ => rfl)
    wsysAB rfl (seqSched wsysAB) wfinalAB rfl (by decide)).1

theorem c3_counter_convergence_witness :
    allDone wfinalAF = true
      ∧ (wfinalAF.state.pending = 0 ∧ wfinalAF.state.executing = 0
          ∧ wfinalAF.state.complete = 1) := by
  refine ⟨by decide, ?_⟩
  exact c3_counter_convergence ["r1"] fetchA fetchF 1
    (fun _ => ([recA], false)) (fun _ => ([], true))
    (fun r _ => ⟨[none], rfl⟩) (fun r _ => ⟨[none], rfl⟩)
    wsysAF rfl (seqSched wsysAF) wfinalAF rfl (by decide)

theorem c4_launch_invariant_witness :
    run wsysAB [Tid.main] = some wmidAB
      ∧ wmidAB.state.pending + wmidAB.state.executing + wmidAB.state.complete
          ≤ (launchedCount wmidAB : Int)
      ∧ launchedCount wmidAB ≤ 1 := by
  have h := c4_launch_invariant ["r1"] fetchA fetchB 1
    (fun _ => ([recA], false)) (fun _ => ([recB], false))
    (fun r _ => ⟨[none], rfl⟩) (fun r _ => ⟨[none], rfl⟩)
    wsysAB rfl [Tid.main] wmidAB rfl
  exact ⟨rfl, h.1, h.2.1⟩

theorem c5_partial_failure_isolation_witness :
    ("us-east-1" : String) ∈ ["us-east-1", "us-west-2"]
      ∧ 1 ≤ wfinalX.state.error
      ∧ wfinalX.state.complete = 2
      ∧ wfinalX.state.collection.length = 4 := by
  have hsm : ∀ r ∈ ["us-east-1", "us-west-2"], ∃ toks,
      paginate (fetchSMx r) 1 none
        = some ((if r = "us-east-1" then
            [(⟨some "a1", none⟩ : RawRecord), ⟨some "a2", none⟩]
          else [⟨some "w1", none⟩], false).1,
          (if r = "us-east-1" then
            [(⟨some "a1", none⟩ : RawRecord), ⟨some "a2", none⟩]
          else [⟨some "w1", none⟩], false).2, toks) := by
    intro r hr
    simp only [List.mem_cons, List.mem_singleton, List.not_mem_nil, or_false] at hr
    rcases hr with rfl | rfl
    · exact ⟨[none], rfl⟩
    · exact ⟨[none], rfl⟩
  have hssm : ∀ r ∈ ["us-east-1", "us-west-2"], ∃ toks,
      paginate (fetchSSMx r) 1 none
        = some ((if r = "us-east-1" then (([] : List RawRecord), true)
            else ([⟨some "w2", none⟩], false)).1,
          (if r = "us-east-1" then (([] : List RawRecord), true)
            else ([⟨some "w2", none⟩], false)).2, toks) := by
    intro r hr
    simp only [List.mem_cons, List.mem_singleton, List.not_mem_nil, or_false] at hr
    rcases hr with rfl | rfl
    · exact ⟨[none], rfl⟩
    · exact ⟨[none], rfl⟩
  have h := c5_partial_failure_isolation ["us-east-1", "us-west-2"]
    fetchSMx fetchSSMx 1
    (fun r => if r = "us-east-1" then
      ([(⟨some "a1", none⟩ : RawRecord), ⟨some "a2", none⟩], false)
      else ([⟨some "w1", none⟩], false))
    (fun r => if r = "us-east-1" then (([] : List RawRecord), true)
      else ([⟨some "w2", none⟩], false))
    (fun r hr => by
      have := hsm r hr
      simpa [apply_ite] using this)
    (fun r hr => by
      have := hssm r hr
      simpa [apply_ite] using this)
    "us-east-1" (by decide) (Or.inr (by decide))
    wsysX rfl (seqSched wsysX) wfinalX rfl (by decide)
  exact ⟨by decide, h.2.1, h.2.2, by decide⟩

theorem c6_pagination_termination_witness :
    IsChain chainFetch none ["t1"]
      ∧ ∃ recs, paginate chainFetch 2 none
          = some (recs, false, none :: (["t1"].map some))
        ∧ (none :: (["t1"].map some)).length = (["t1"] : List String).length + 1 := by
  have hchain : IsChain chainFetch none ["t1"] := by
    simp only [IsChain]
    exact ⟨[⟨some "p1", none⟩], rfl, [⟨some "p2", none⟩], rfl⟩
  exact ⟨hchain, c6_pagination_termination chainFetch ["t1"] 2 hchain (by decide)⟩

theorem c7_item_construction_witness :
    recB.description = none
      ∧ submitsOf (workerEvents ([recA], false) ([recB], false) "r1")
        = [Secret.mk "SecretsManager" "r1" "alpha" "da",
           Secret.mk "SSM" "r1" "beta" ""] := by
  have h := c7_item_construction ([recA], false) ([recB], false) "r1"
  refine ⟨rfl, ?_⟩
  rw [h.1]
  decide

theorem c8_no_abort_and_report_witness :
    initSys? ["r1"] fetchF fetchF 1 = some wsysFF
      ∧ ∃ final, run wsysFF (seqSched wsysFF) = some final
          ∧ allDone final = true
          ∧ (outputBody final.state.collection).length
              = final.state.collection.length
          ∧ (final.state.collection.length = 0 →
              finalReport (outputBody final.state.collection)
                = "[secrets] No secrets found, skipping the creation of an output file.\n")
          ∧ (0 < final.state.collection.length →
              finalReport (outputBody final.state.collection)
                = "[secrets] " ++ toString final.state.collection.length
                    ++ " secrets found.\n")
          ∧ ((["r1"] : List String) = [] → final.state.collection = []) := by
  exact ⟨rfl, c8_no_abort_and_report ["r1"] fetchF fetchF 1
    (fun _ => ([], true)) (fun _ => ([], true))
    (fun r _ => ⟨[none], rfl⟩) (fun r _ => ⟨[none], rfl⟩) wsysFF rfl⟩

theorem c9_loot_reconstruction_witness :
    allDone wfinalAB = true
      ∧ lootBody wfinalAB.state.collection = joinCmds wfinalAB.state.collection := by
  refine ⟨by decide, ?_⟩
  exact (c9_loot_reconstruction ["r1"] fetchA fetchB 1
    (fun _ => ([recA], false)) (fun _ => ([recB], false))
    (fun r _ => ⟨[none], rfl⟩) (fun r _ => ⟨[none], rfl⟩)
    wsysAB rfl (seqSched wsysAB) wfinalAB rfl (by decide)).1

theorem c10_profile_fallback_witness :
    resolveProfile "" (some "123") (some "AIDA") = "123-AIDA"
      ∧ resolveProfile "dev" (some "123") (some "AIDA") = "dev"
      ∧ outputPath "out" (resolveProfile "" (some "123") (some "AIDA"))
          = "out" ++ "/cloudfox-output/aws/" ++ "123-AIDA" := by
  have h1 := (c10_profile_fallback "" (some "123") (some "AIDA") "out").1 rfl
  have h2 := (c10_profile_fallback "dev" (some "123") (some "AIDA") "out").2
    (by decide)
  exact ⟨h1.1.trans (by decide), h2, h1.2.trans (by decide)⟩

end Cloudfox
